/-
Verification of the spaced-everything scheduling core.

This file shallow-embeds the scheduling logic of the plugin
(src/main.ts, src/settings.ts, src/frontmatterQueue.ts) into Lean 4 and
proves the spec claims about it.

Modelling conventions:
* JavaScript numbers are modelled as exact rationals (ℚ).  Every numeric
  claim checked here is stated after the code's rounding to 4 decimal
  places (`toFixed(4)`), at which granularity the rational model and IEEE
  doubles agree on the claimed values.
* Frontmatter metadata maps are modelled as total functions
  `String → Option FmValue`, or as structures listing the recognized keys
  where the code reads only those keys.
* User interactions (suggester prompts) are modelled as `Option`-valued
  parameters: `none` is a cancelled prompt.
* Queued frontmatter mutations are returned explicitly as lists of
  key/value pairs instead of being hidden in plugin state.
-/
import Mathlib

/-- A frontmatter value, as the plugin stores them.  `undef` models the
JavaScript `undefined` value, which the frontmatter queue interprets as
"delete this key". -/
inductive FmValue where
  | num (q : ℚ)
  | str (s : String)
  | strList (l : List String)
  | undef
deriving DecidableEq, Repr

/-- A review option of a spacing method (src/types.ts). -/
structure ReviewOption where
  name : String
  score : ℚ
deriving DecidableEq, Repr

/-- A spacing method (src/types.ts). -/
structure SpacingMethod where
  name : String
  spacingAlgorithm : String
  customScriptFileName : String
  reviewOptions : List ReviewOption
  defaultInterval : ℚ
  defaultEaseFactor : Option ℚ
deriving DecidableEq, Repr

/-- A context (src/types.ts); `spacingMethodName` is optional there. -/
structure Context where
  name : String
  isActive : Bool
  spacingMethodName : Option String
deriving DecidableEq, Repr

/-- The slice of the plugin settings the scheduling core reads
(src/settings.ts `SpacedEverythingPluginSettings`; fields not consumed by
the embedded operations are omitted). -/
structure Settings where
  contexts : List Context
  spacingMethods : List SpacingMethod
deriving DecidableEq, Repr

/-- The recognized scheduling keys of a note's frontmatter, with parsed
values: `se-interval`, `se-last-reviewed` (already parsed to epoch
milliseconds), `se-method`, `se-contexts`.  Absent or falsy keys are
`none` / `[]`, matching the `|| []` and truthiness guards in the code. -/
structure NoteMeta where
  interval : Option ℚ
  lastReviewed : Option ℚ
  seMethod : Option String
  contexts : List String
deriving DecidableEq, Repr

/-- `x.toFixed(4)` followed by `parseFloat`: round to 4 decimal places. -/
def round4 (q : ℚ) : ℚ := (round (q * 10000) : ℤ) / 10000

/-- The interval-update computation of `updateInterval`
(src/main.ts lines 550-590), as a pure function of the prior interval,
prior ease factor and review score. -/
def updateIntervalCalc (prevInterval prevEaseFactor reviewScore : ℚ) : ℚ × ℚ :=
  -- Calculate the new ease factor based on the review score
  let newEaseFactor0 := prevEaseFactor +
    ((0.1 : ℚ) - (5 - reviewScore) * ((0.08 : ℚ) + (5 - reviewScore) * (0.02 : ℚ)))
  let newEaseFactor := max (1.3 : ℚ) (round4 newEaseFactor0)
  -- Calculate the new interval using the SuperMemo 2.0 formula
  let newInterval0 := round4 (max 1 (prevInterval * newEaseFactor))
  -- Override interval to 1 day if the review score less than 3
  let newInterval := if reviewScore < 3 then 1 else newInterval0
  (newInterval, newEaseFactor)

/-- **C1.** For every review score `r ∈ [0,5]` and prior interval/ease,
`updateInterval` computes the new ease as
`priorEase + (0.1 - (5-r)*(0.08 + (5-r)*0.02))` rounded to 4 decimal
places and floored at `1.3` (so the new ease is always `≥ 1.3`), and the
new interval as `max(1, priorInterval * newEase)` rounded to 4 decimal
places, except that the interval is overridden to exactly `1` when
`r < 3`; in particular `(priorInterval, priorEase, r) = (1, 2.5, 5)`
yields exactly `(interval, ease) = (2.6, 2.6)`. -/
theorem updateInterval_formula_spec (r i e : ℚ) (_hr0 : 0 ≤ r) (_hr5 : r ≤ 5) :
    (updateIntervalCalc i e r).2 =
      max (1.3 : ℚ) (round4 (e + ((0.1 : ℚ) - (5 - r) * ((0.08 : ℚ) + (5 - r) * (0.02 : ℚ))))) ∧
    (1.3 : ℚ) ≤ (updateIntervalCalc i e r).2 ∧
    (r < 3 → (updateIntervalCalc i e r).1 = 1) ∧
    (¬ r < 3 → (updateIntervalCalc i e r).1 =
      round4 (max 1 (i * (updateIntervalCalc i e r).2))) ∧
    updateIntervalCalc 1 (2.5 : ℚ) 5 = ((2.6 : ℚ), (2.6 : ℚ)) := by
  refine ⟨rfl, le_max_left _ _, ?_, ?_, ?_⟩
  · intro h
    simp only [updateIntervalCalc, if_pos h]
  · intro h
    simp only [updateIntervalCalc, if_neg h]
  · unfold updateIntervalCalc
    norm_num [round4, round_eq]

/-- Witness for `updateInterval_formula_spec` at `r = 5`, `i = 1`,
`e = 2.5`. -/
theorem updateInterval_formula_spec_witness :
    (0:ℚ) ≤ 5 ∧ (5:ℚ) ≤ 5 ∧
    ((updateIntervalCalc 1 (2.5 : ℚ) 5).2 =
      max (1.3 : ℚ) (round4 ((2.5 : ℚ) + ((0.1 : ℚ) - (5 - 5) * ((0.08 : ℚ) + (5 - 5) * (0.02 : ℚ))))) ∧
    (1.3 : ℚ) ≤ (updateIntervalCalc 1 (2.5 : ℚ) 5).2 ∧
    ((5:ℚ) < 3 → (updateIntervalCalc 1 (2.5 : ℚ) 5).1 = 1) ∧
    (¬ (5:ℚ) < 3 → (updateIntervalCalc 1 (2.5 : ℚ) 5).1 =
      round4 (max 1 (1 * (updateIntervalCalc 1 (2.5 : ℚ) 5).2))) ∧
    updateIntervalCalc 1 (2.5 : ℚ) 5 = ((2.6 : ℚ), (2.6 : ℚ))) :=
  ⟨by norm_num, by norm_num,
    updateInterval_formula_spec 5 1 (2.5 : ℚ) (by norm_num) (by norm_num)⟩

/-- `spacingMethods.find(method => method.name === n)`. -/
def findMethodByName (methods : List SpacingMethod) (n : String) : Option SpacingMethod :=
  methods.find? (fun m => m.name == n)

/-- The stored-method lookup of `getActiveSpacingMethod`:
`spacingMethods.find(method => method.name === seMethod)`; with `se-method`
absent the strict equality never holds. -/
def storedMethod (st : Settings) (fm : NoteMeta) : Option SpacingMethod :=
  match fm.seMethod with
  | none => none
  | some s => findMethodByName st.spacingMethods s

/-- `getActiveSpacingMethod` (src/main.ts lines 592-636).  The result pairs
the resolved spacing method with the queued `se-method` write-back
(`none` when nothing is queued).  A `none` overall result models the
JavaScript crash on `spacingMethods[0].name` when no method is registered.
The `n = ""` test models JavaScript truthiness of
`if (contextSpacingMethod)` for the empty string. -/
def getActiveSpacingMethod (st : Settings) (fm : NoteMeta) :
    Option (SpacingMethod × Option String) :=
  match storedMethod st fm with
  | some m => some (m, none)
  | none =>
    match fm.contexts with
    | [] =>
      (st.spacingMethods.head?).map (fun m0 => (m0, some m0.name))
    | firstContext :: _ =>
      match (st.contexts.find? (fun ctx => ctx.name == firstContext)).bind
          (fun ctx => ctx.spacingMethodName) with
      | some n =>
        if n = "" then
          (st.spacingMethods.head?).map (fun m0 => (m0, some m0.name))
        else
          match findMethodByName st.spacingMethods n with
          | some m => some (m, some m.name)
          | none => (st.spacingMethods.head?).map (fun m0 => (m0, some m0.name))
      | none =>
        (st.spacingMethods.head?).map (fun m0 => (m0, some m0.name))

/-- The spacing method bound to the note's first context, when that context
is registered, carries a truthy binding, and the bound name still resolves
to a registered method — the condition of the resolver's third case. -/
def contextBoundMethod (st : Settings) (ctxName : String) : Option SpacingMethod :=
  match (st.contexts.find? (fun ctx => ctx.name == ctxName)).bind
      (fun ctx => ctx.spacingMethodName) with
  | some n => if n = "" then none else findMethodByName st.spacingMethods n
  | none => none

/-- **C2.** Given at least one registered spacing method, resolution never
fails and follows the claimed precedence: (1) a stored `se-method` naming a
registered method is returned with no write-back; (2) otherwise with no
note contexts the first registered method is returned and persisted;
(3) otherwise, when the first listed context is bound to a method that
still exists, that method is returned and persisted; (4) otherwise the
first registered method is returned and persisted. -/
theorem getActiveSpacingMethod_precedence (st : Settings) (fm : NoteMeta)
    (hne : st.spacingMethods ≠ []) :
    (∃ m wb, getActiveSpacingMethod st fm = some (m, wb) ∧ m ∈ st.spacingMethods) ∧
    (∀ m, storedMethod st fm = some m → getActiveSpacingMethod st fm = some (m, none)) ∧
    (storedMethod st fm = none → fm.contexts = [] →
      getActiveSpacingMethod st fm =
        (st.spacingMethods.head?).map (fun m0 => (m0, some m0.name))) ∧
    (∀ c cs m, storedMethod st fm = none → fm.contexts = c :: cs →
      contextBoundMethod st c = some m →
      getActiveSpacingMethod st fm = some (m, some m.name)) ∧
    (∀ c cs, storedMethod st fm = none → fm.contexts = c :: cs →
      contextBoundMethod st c = none →
      getActiveSpacingMethod st fm =
        (st.spacingMethods.head?).map (fun m0 => (m0, some m0.name))) := by
  obtain ⟨m0, tl, hst⟩ : ∃ m0 tl, st.spacingMethods = m0 :: tl := by
    cases h : st.spacingMethods with
    | nil => exact absurd h hne
    | cons a l => exact ⟨a, l, rfl⟩
  have hhead : st.spacingMethods.head? = some m0 := by rw [hst]; rfl
  have hm0 : m0 ∈ st.spacingMethods := by rw [hst]; exact List.mem_cons_self _ _
  refine ⟨?_, ?_, ?_, ?_, ?_⟩
  · -- totality and membership
    cases hsm : storedMethod st fm with
    | some m =>
      refine ⟨m, none, ?_, ?_⟩
      · unfold getActiveSpacingMethod; rw [hsm]
      · unfold storedMethod at hsm
        cases hsey : fm.seMethod with
        | none => rw [hsey] at hsm; exact absurd hsm (by simp)
        | some s =>
          rw [hsey] at hsm
          exact List.mem_of_find?_eq_some hsm
    | none =>
      cases hc : fm.contexts with
      | nil =>
        refine ⟨m0, some m0.name, ?_, hm0⟩
        unfold getActiveSpacingMethod
        simp [hsm, hc, hhead]
      | cons c cs =>
        cases hb : (st.contexts.find? (fun ctx => ctx.name == c)).bind
            (fun ctx => ctx.spacingMethodName) with
        | none =>
          refine ⟨m0, some m0.name, ?_, hm0⟩
          unfold getActiveSpacingMethod
          simp [hsm, hc, hb, hhead]
        | some n =>
          by_cases hn : n = ""
          · refine ⟨m0, some m0.name, ?_, hm0⟩
            unfold getActiveSpacingMethod
            simp [hsm, hc, hb, hn, hhead]
          · cases hf : findMethodByName st.spacingMethods n with
            | some m =>
              refine ⟨m, some m.name, ?_, List.mem_of_find?_eq_some hf⟩
              unfold getActiveSpacingMethod
              simp [hsm, hc, hb, hn, hf]
            | none =>
              refine ⟨m0, some m0.name, ?_, hm0⟩
              unfold getActiveSpacingMethod
              simp [hsm, hc, hb, hn, hf, hhead]
  · intro m hsm
    unfold getActiveSpacingMethod
    rw [hsm]
  · intro hsm hc
    unfold getActiveSpacingMethod
    rw [hsm, hc]
  · intro c cs m hsm hc hbm
    unfold contextBoundMethod at hbm
    cases hb : (st.contexts.find? (fun ctx => ctx.name == c)).bind
        (fun ctx => ctx.spacingMethodName) with
    | none => simp [hb] at hbm
    | some n =>
      simp only [hb] at hbm
      by_cases hn : n = ""
      · simp [hn] at hbm
      · rw [if_neg hn] at hbm
        unfold getActiveSpacingMethod
        simp [hsm, hc, hb, hn, hbm]
  · intro c cs hsm hc hbm
    unfold contextBoundMethod at hbm
    cases hb : (st.contexts.find? (fun ctx => ctx.name == c)).bind
        (fun ctx => ctx.spacingMethodName) with
    | none =>
      unfold getActiveSpacingMethod
      simp [hsm, hc, hb, hhead]
    | some n =>
      simp only [hb] at hbm
      by_cases hn : n = ""
      · unfold getActiveSpacingMethod
        simp [hsm, hc, hb, hn, hhead]
      · rw [if_neg hn] at hbm
        unfold getActiveSpacingMethod
        simp [hsm, hc, hb, hn, hbm, hhead]

/-- Witness for `getActiveSpacingMethod_precedence` on a one-method
registry and an untagged note. -/
theorem getActiveSpacingMethod_precedence_witness :
    ([⟨"SuperMemo 2.0 (Simplified)", "SuperMemo2.0", "", [], 1, some (2.5 : ℚ)⟩] :
        List SpacingMethod) ≠ [] ∧
    (∃ m wb,
      getActiveSpacingMethod
        ⟨[], [⟨"SuperMemo 2.0 (Simplified)", "SuperMemo2.0", "", [], 1, some (2.5 : ℚ)⟩]⟩
        ⟨none, none, none, []⟩ = some (m, wb) ∧
      m ∈ ([⟨"SuperMemo 2.0 (Simplified)", "SuperMemo2.0", "", [], 1, some (2.5 : ℚ)⟩] :
        List SpacingMethod)) :=
  ⟨by decide,
    (getActiveSpacingMethod_precedence
      ⟨[], [⟨"SuperMemo 2.0 (Simplified)", "SuperMemo2.0", "", [], 1, some (2.5 : ℚ)⟩]⟩
      ⟨none, none, none, []⟩ (by decide)).1⟩

/-- Applying the queued `se-method` write-back of a resolution
(`queueFrontmatterUpdate(file, {'se-method': name})` followed by queue
processing) to the note's metadata. -/
def applyMethodWriteback (fm : NoteMeta) (wb : Option String) : NoteMeta :=
  match wb with
  | none => fm
  | some n => { fm with seMethod := some n }

/-- The head of the method registry is found when looked up by its own
name. -/
theorem findMethodByName_self_head (m0 : SpacingMethod) (tl : List SpacingMethod) :
    findMethodByName (m0 :: tl) m0.name = some m0 := by
  unfold findMethodByName
  rw [List.find?_cons_of_pos]
  simp

/-- A method found by name carries that name. -/
theorem findMethodByName_name_eq {methods : List SpacingMethod} {n : String}
    {m : SpacingMethod} (h : findMethodByName methods n = some m) : m.name = n := by
  have h2 := List.find?_some h
  simpa using h2

/-- A method found by some name is re-found when looked up by its own
name. -/
theorem findMethodByName_self {methods : List SpacingMethod} {n : String}
    {m : SpacingMethod} (h : findMethodByName methods n = some m) :
    findMethodByName methods m.name = some m := by
  rw [findMethodByName_name_eq h]; exact h

/-- **C5.** Method resolution is idempotent: with at least one registered
spacing method, resolving a note's method and applying its write-back
(with no other metadata change), then resolving again, yields the same
spacing method both times and the second resolution queues no further
metadata mutation. -/
theorem getActiveSpacingMethod_idempotent (st : Settings) (fm : NoteMeta)
    (hne : st.spacingMethods ≠ []) :
    ∃ m wb, getActiveSpacingMethod st fm = some (m, wb) ∧
      getActiveSpacingMethod st (applyMethodWriteback fm wb) = some (m, none) := by
  obtain ⟨m0, tl, hst⟩ : ∃ m0 tl, st.spacingMethods = m0 :: tl := by
    cases h : st.spacingMethods with
    | nil => exact absurd h hne
    | cons a l => exact ⟨a, l, rfl⟩
  have hhead : st.spacingMethods.head? = some m0 := by rw [hst]; rfl
  have hfind0 : findMethodByName st.spacingMethods m0.name = some m0 := by
    rw [hst]; exact findMethodByName_self_head m0 tl
  cases hsm : storedMethod st fm with
  | some m =>
    refine ⟨m, none, ?_, ?_⟩
    · unfold getActiveSpacingMethod; rw [hsm]
    · show getActiveSpacingMethod st fm = some (m, none)
      unfold getActiveSpacingMethod; rw [hsm]
  | none =>
    have hsecond : ∀ m : SpacingMethod,
        findMethodByName st.spacingMethods m.name = some m →
        getActiveSpacingMethod st (applyMethodWriteback fm (some m.name)) =
          some (m, none) := by
      intro m hf
      unfold getActiveSpacingMethod storedMethod applyMethodWriteback
      simp [hf]
    cases hc : fm.contexts with
    | nil =>
      refine ⟨m0, some m0.name, ?_, hsecond m0 hfind0⟩
      unfold getActiveSpacingMethod
      simp [hsm, hc, hhead]
    | cons c cs =>
      cases hb : (st.contexts.find? (fun ctx => ctx.name == c)).bind
          (fun ctx => ctx.spacingMethodName) with
      | none =>
        refine ⟨m0, some m0.name, ?_, hsecond m0 hfind0⟩
        unfold getActiveSpacingMethod
        simp [hsm, hc, hb, hhead]
      | some n =>
        by_cases hn : n = ""
        · refine ⟨m0, some m0.name, ?_, hsecond m0 hfind0⟩
          unfold getActiveSpacingMethod
          simp [hsm, hc, hb, hn, hhead]
        · cases hf : findMethodByName st.spacingMethods n with
          | some m =>
            refine ⟨m, some m.name, ?_, hsecond m (findMethodByName_self hf)⟩
            unfold getActiveSpacingMethod
            simp [hsm, hc, hb, hn, hf]
          | none =>
            refine ⟨m0, some m0.name, ?_, hsecond m0 hfind0⟩
            unfold getActiveSpacingMethod
            simp [hsm, hc, hb, hn, hf, hhead]

/-- Witness for `getActiveSpacingMethod_idempotent` on a one-method
registry and a note whose first resolution infers the method. -/
theorem getActiveSpacingMethod_idempotent_witness :
    ([⟨"SuperMemo 2.0 (Simplified)", "SuperMemo2.0", "", [], 1, some (2.5 : ℚ)⟩] :
        List SpacingMethod) ≠ [] ∧
    ∃ m wb,
      getActiveSpacingMethod
        ⟨[], [⟨"SuperMemo 2.0 (Simplified)", "SuperMemo2.0", "", [], 1, some (2.5 : ℚ)⟩]⟩
        ⟨some 1, none, none, []⟩ = some (m, wb) ∧
      getActiveSpacingMethod
        ⟨[], [⟨"SuperMemo 2.0 (Simplified)", "SuperMemo2.0", "", [], 1, some (2.5 : ℚ)⟩]⟩
        (applyMethodWriteback ⟨some 1, none, none, []⟩ wb) = some (m, none) :=
  ⟨by decide,
    getActiveSpacingMethod_idempotent
      ⟨[], [⟨"SuperMemo 2.0 (Simplified)", "SuperMemo2.0", "", [], 1, some (2.5 : ℚ)⟩]⟩
      ⟨some 1, none, none, []⟩ (by decide)⟩

/-- `24 * 60 * 60 * 1000` milliseconds, the interval unit conversion of
`openNextReviewItem`. -/
def msPerDay : ℚ := 24 * 60 * 60 * 1000

/-- `metadata["se-last-reviewed"] ? parseTimestamp(...).getTime() : 0`:
a missing last-reviewed value is treated as epoch time 0. -/
def lastReviewedMs (n : NoteMeta) : ℚ := n.lastReviewed.getD 0

/-- The due filter of `openNextReviewItem` (src/main.ts lines 442-455):
a note passes iff `se-interval` is present and
`currentTime > lastReviewed + interval * 24*60*60*1000`. -/
def isDue (now : ℚ) (n : NoteMeta) : Bool :=
  match n.interval with
  | none => false
  | some i => decide (now > lastReviewedMs n + i * msPerDay)

/-- `aDueTime = aLastReviewed + (aInterval || 0)` of the sort comparator
(src/main.ts lines 456-474). -/
def dueTime (n : NoteMeta) : ℚ := lastReviewedMs n + (n.interval.getD 0) * msPerDay

instance dueLEDecidable : DecidableRel (fun a b : NoteMeta => dueTime a ≤ dueTime b) :=
  fun _ _ => inferInstanceAs (Decidable (_ ≤ _))

/-- The review-queue construction of `openNextReviewItem` (src/main.ts
lines 436-484) on the context-filtered note list: the due filter followed
by the ascending sort on due time.  `Array.prototype.sort` is stable
(ES2019) and the comparator `aDueTime - bDueTime` is a consistent total
preorder, so its output is the unique stable ascending sort, realized here
by insertion sort. -/
def reviewQueue (now : ℚ) (notes : List NoteMeta) : List NoteMeta :=
  (notes.filter (isDue now)).insertionSort (fun a b => dueTime a ≤ dueTime b)

/-- Inserting into a list sorted by due time commutes with filtering on a
fixed due time: elements skipped over by the insertion have strictly
smaller due time, so equal-due-time blocks keep their order. -/
theorem filter_orderedInsert_dueTime (t : ℚ) (x : NoteMeta) (l : List NoteMeta) :
    (l.orderedInsert (fun a b => dueTime a ≤ dueTime b) x).filter
        (fun n => decide (dueTime n = t)) =
      if dueTime x = t then
        x :: l.filter (fun n => decide (dueTime n = t))
      else l.filter (fun n => decide (dueTime n = t)) := by
  induction l with
  | nil =>
    simp only [List.orderedInsert, List.filter]
    by_cases hx : dueTime x = t
    · simp [hx]
    · simp [hx]
  | cons b l ih =>
    simp only [List.orderedInsert]
    by_cases hxb : dueTime x ≤ dueTime b
    · rw [if_pos hxb]
      by_cases hx : dueTime x = t
      · simp [List.filter_cons, hx]
      · simp [List.filter_cons, hx]
    · rw [if_neg hxb]
      by_cases hb : dueTime b = t
      · have hx : ¬ dueTime x = t := by
          intro hx
          exact hxb (le_of_eq (hx.trans hb.symm))
        simp [List.filter_cons, hb, hx, ih]
      · simp [List.filter_cons, hb, ih]

/-- Insertion sort by due time is stable: it preserves the relative input
order of notes sharing a due time. -/
theorem filter_insertionSort_dueTime (t : ℚ) (l : List NoteMeta) :
    ((l.insertionSort (fun a b => dueTime a ≤ dueTime b)).filter
        (fun n => decide (dueTime n = t))) =
      l.filter (fun n => decide (dueTime n = t)) := by
  induction l with
  | nil => rfl
  | cons a l ih =>
    simp only [List.insertionSort]
    rw [filter_orderedInsert_dueTime]
    by_cases ha : dueTime a = t
    · simp [List.filter_cons, ha, ih]
    · simp [List.filter_cons, ha, ih]

/-- **C3.** On the context-filtered note list, the review queue contains
exactly the notes that are onboarded (have the interval key) and satisfy
`now > lastReviewedTime + interval * 86400000` ms, a missing last-reviewed
value counting as time 0; the queue is ordered ascending by
`dueTime = lastReviewedTime + interval * 86400000` ms with ties preserving
input order (stable sort), and the head is the most overdue note. -/
theorem reviewQueue_spec (now : ℚ) (notes : List NoteMeta) :
    (∀ n, isDue now n = true ↔
      ∃ i, n.interval = some i ∧ now > n.lastReviewed.getD 0 + i * 86400000) ∧
    (∀ n, dueTime n = n.lastReviewed.getD 0 + n.interval.getD 0 * 86400000) ∧
    (reviewQueue now notes).Perm (notes.filter (isDue now)) ∧
    (∀ n, n ∈ reviewQueue now notes ↔ n ∈ notes ∧ isDue now n = true) ∧
    (reviewQueue now notes).Sorted (fun a b => dueTime a ≤ dueTime b) ∧
    (∀ t : ℚ, (reviewQueue now notes).filter (fun n => decide (dueTime n = t)) =
      (notes.filter (isDue now)).filter (fun n => decide (dueTime n = t))) ∧
    (∀ h rest, reviewQueue now notes = h :: rest →
      ∀ y ∈ reviewQueue now notes, dueTime h ≤ dueTime y) := by
  haveI : IsTotal NoteMeta (fun a b => dueTime a ≤ dueTime b) := ⟨fun a b => le_total _ _⟩
  haveI : IsTrans NoteMeta (fun a b => dueTime a ≤ dueTime b) :=
    ⟨fun a b c hab hbc => le_trans hab hbc⟩
  have hperm : (reviewQueue now notes).Perm (notes.filter (isDue now)) :=
    List.perm_insertionSort _ _
  have hsorted : (reviewQueue now notes).Sorted (fun a b => dueTime a ≤ dueTime b) :=
    List.sorted_insertionSort _ _
  refine ⟨?_, ?_, hperm, ?_, hsorted, ?_, ?_⟩
  · intro n
    cases hi : n.interval with
    | none => simp [isDue, hi]
    | some i =>
      simp [isDue, hi, lastReviewedMs, msPerDay]
      norm_num
  · intro n
    simp [dueTime, lastReviewedMs, msPerDay]
    norm_num
  · intro n
    rw [hperm.mem_iff, List.mem_filter]
  · intro t
    exact filter_insertionSort_dueTime t _
  · intro h rest hq y hy
    rw [hq] at hsorted hy
    rcases List.mem_cons.mp hy with rfl | hmem
    · exact le_refl _
    · exact (List.sorted_cons.mp hsorted).1 y hmem

/-- Witness for `reviewQueue_spec` on the spec's three-note example:
notes with due times T1 < T2 < T3, the third not yet due, produce the
queue `[note1, note2]` with the most overdue note at the head. -/
theorem reviewQueue_spec_witness :
    reviewQueue 200000000
      [⟨some 1, some 0, none, []⟩, ⟨some 2, some 0, none, []⟩, ⟨some 10, some 0, none, []⟩] =
      [⟨some 1, some 0, none, []⟩, ⟨some 2, some 0, none, []⟩] ∧
    (∀ y ∈ reviewQueue 200000000
      [⟨some 1, some 0, none, []⟩, ⟨some 2, some 0, none, []⟩, ⟨some 10, some 0, none, []⟩],
      dueTime ⟨some 1, some 0, none, []⟩ ≤ dueTime y) := by
  have hq : reviewQueue 200000000
      [⟨some 1, some 0, none, []⟩, ⟨some 2, some 0, none, []⟩, ⟨some 10, some 0, none, []⟩] =
      [⟨some 1, some 0, none, []⟩, ⟨some 2, some 0, none, []⟩] := by
    norm_num [reviewQueue, List.insertionSort, List.orderedInsert, isDue, dueTime,
      lastReviewedMs, msPerDay, List.filter]
  exact ⟨hq,
    (reviewQueue_spec 200000000
      [⟨some 1, some 0, none, []⟩, ⟨some 2, some 0, none, []⟩,
        ⟨some 10, some 0, none, []⟩]).2.2.2.2.2.2
      ⟨some 1, some 0, none, []⟩ [⟨some 2, some 0, none, []⟩] hq⟩

/-- `activeContexts`: names of the registered contexts with `isActive`
(src/main.ts line 403). -/
def activeContextNames (st : Settings) : List String :=
  (st.contexts.filter (fun c => c.isActive)).map (fun c => c.name)

/-- `filterNotesByContext` (src/main.ts lines 402-433).  The boolean result
component records whether the distinct `'Spaced everything: No active
contexts'` notice was emitted. -/
def filterNotesByContext (st : Settings) (files : List NoteMeta) :
    List NoteMeta × Bool :=
  let activeContexts := activeContextNames st
  -- Case 1: no contexts defined at all
  if st.contexts.length = 0 then (files, false)
  -- Case 2: contexts are defined but all inactive
  else if 0 < st.contexts.length ∧ activeContexts.length = 0 then ([], true)
  else
    (files.filter (fun f =>
      -- Case 3: untagged notes always included
      if f.contexts.length = 0 then true
      -- Case 4: keep iff some note context is active
      else f.contexts.any (fun nc => activeContexts.contains nc)), false)

/-- **C4.** The context filter has three exhaustive cases: with zero
registered contexts every note passes (even notes tagged with undeclared
context names); with registered contexts but none active the result is
empty and the distinct "no active contexts" signal is emitted; otherwise
a note passes iff its own contexts list is empty or it shares at least one
name with the active context names. -/
theorem filterNotesByContext_cases (st : Settings) (files : List NoteMeta) :
    (st.contexts = [] → filterNotesByContext st files = (files, false)) ∧
    (st.contexts ≠ [] → (∀ c ∈ st.contexts, c.isActive = false) →
      filterNotesByContext st files = ([], true)) ∧
    (st.contexts ≠ [] → (∃ c ∈ st.contexts, c.isActive = true) →
      (filterNotesByContext st files).2 = false ∧
      (∀ f, f ∈ (filterNotesByContext st files).1 ↔
        f ∈ files ∧
          (f.contexts = [] ∨ ∃ nc ∈ f.contexts, nc ∈ activeContextNames st))) := by
  refine ⟨?_, ?_, ?_⟩
  · intro h
    simp [filterNotesByContext, h]
  · intro h hall
    have hlen : ¬ st.contexts.length = 0 := by
      simpa [List.length_eq_zero] using h
    have hact : activeContextNames st = [] := by
      unfold activeContextNames
      rw [List.filter_eq_nil_iff.mpr (fun c hc => by simp [hall c hc])]
      rfl
    unfold filterNotesByContext
    rw [if_neg hlen, if_pos ⟨Nat.pos_of_ne_zero hlen, by rw [hact]; rfl⟩]
  · intro h hex
    have hlen : ¬ st.contexts.length = 0 := by
      simpa [List.length_eq_zero] using h
    have hact : activeContextNames st ≠ [] := by
      obtain ⟨c, hc, hca⟩ := hex
      intro hnil
      have : c.name ∈ activeContextNames st :=
        List.mem_map.mpr ⟨c, List.mem_filter.mpr ⟨hc, by simp [hca]⟩, rfl⟩
      rw [hnil] at this
      exact absurd this (List.not_mem_nil _)
    have hcond : ¬ (0 < st.contexts.length ∧ (activeContextNames st).length = 0) := by
      rintro ⟨-, hlen0⟩
      exact hact (List.length_eq_zero.mp hlen0)
    constructor
    · unfold filterNotesByContext
      rw [if_neg hlen, if_neg hcond]
    · intro f
      unfold filterNotesByContext
      rw [if_neg hlen, if_neg hcond]
      simp only [List.mem_filter]
      constructor
      · rintro ⟨hf, hp⟩
        refine ⟨hf, ?_⟩
        by_cases hfc : f.contexts.length = 0
        · exact Or.inl (List.length_eq_zero.mp hfc)
        · rw [if_neg hfc] at hp
          obtain ⟨nc, hnc, hmem⟩ := List.any_eq_true.mp hp
          exact Or.inr ⟨nc, hnc, by simpa using hmem⟩
      · rintro ⟨hf, hp⟩
        refine ⟨hf, ?_⟩
        rcases hp with hemp | ⟨nc, hnc, hmem⟩
        · simp [hemp]
        · have hfc : ¬ f.contexts.length = 0 := by
            intro h0
            rw [List.length_eq_zero.mp h0] at hnc
            exact absurd hnc (List.not_mem_nil _)
          rw [if_neg hfc]
          exact List.any_eq_true.mpr ⟨nc, hnc, by simpa using hmem⟩

/-- Witness for `filterNotesByContext_cases`: one registered active context
"work"; an untagged note and a "work"-tagged note pass, a "home"-tagged
note does not. -/
theorem filterNotesByContext_cases_witness :
    (([⟨"work", true, none⟩] : List Context) ≠ [] ∧
      (∃ c ∈ ([⟨"work", true, none⟩] : List Context), c.isActive = true)) ∧
    ((filterNotesByContext ⟨[⟨"work", true, none⟩], []⟩
        [⟨none, none, none, []⟩, ⟨none, none, none, ["work"]⟩,
          ⟨none, none, none, ["home"]⟩]).2 = false ∧
      (∀ f, f ∈ (filterNotesByContext ⟨[⟨"work", true, none⟩], []⟩
        [⟨none, none, none, []⟩, ⟨none, none, none, ["work"]⟩,
          ⟨none, none, none, ["home"]⟩]).1 ↔
        f ∈ [⟨none, none, none, []⟩, ⟨none, none, none, ["work"]⟩,
          ⟨none, none, none, ["home"]⟩] ∧
          (f.contexts = [] ∨
            ∃ nc ∈ f.contexts, nc ∈ activeContextNames ⟨[⟨"work", true, none⟩], []⟩))) :=
  ⟨⟨by decide, ⟨⟨"work", true, none⟩, by decide, rfl⟩⟩,
    (filterNotesByContext_cases ⟨[⟨"work", true, none⟩], []⟩
      [⟨none, none, none, []⟩, ⟨none, none, none, ["work"]⟩,
        ⟨none, none, none, ["home"]⟩]).2.2
      (by decide) ⟨⟨"work", true, none⟩, by decide, rfl⟩⟩

/-- `!value.trim()`: the typed value is blank, i.e. all whitespace. -/
def isBlank (value : String) : Bool := value.data.all Char.isWhitespace

/-- The rename handler of the spacing-method "Name" text setting
(src/settings.ts lines 354-368): a blank value falls back to
`Spacing method #<index+1>`, otherwise the method's name is set to the
typed value; nothing else in the settings is touched. -/
def renameSpacingMethod (st : Settings) (index : ℕ) (value : String) : Settings :=
  let defaultName := "Spacing method #" ++ toString (index + 1)
  let newName := if isBlank value then defaultName else value
  { st with
    spacingMethods :=
      st.spacingMethods.mapIdx (fun i m => if i = index then { m with name := newName } else m) }

/-- **C6 counterexample.** Renaming a spacing method does not cascade to
contexts referencing it: with one method "A" and one context bound to "A",
renaming the method to "B" leaves the context's binding at "A" while the
method's name becomes "B" — contradicting the claim that the binding then
equals the new name. -/
theorem renameSpacingMethod_no_cascade_cex :
    ((renameSpacingMethod
        ⟨[⟨"ctx", true, some "A"⟩], [⟨"A", "SuperMemo2.0", "", [], 1, some (2.5 : ℚ)⟩]⟩
        0 "B").spacingMethods.map (fun m => m.name) = ["B"]) ∧
    ((renameSpacingMethod
        ⟨[⟨"ctx", true, some "A"⟩], [⟨"A", "SuperMemo2.0", "", [], 1, some (2.5 : ℚ)⟩]⟩
        0 "B").contexts.map (fun c => c.spacingMethodName) = [some "A"]) ∧
    (some "A" ≠ some "B") := by
  refine ⟨?_, rfl, by decide⟩
  unfold renameSpacingMethod
  rw [show isBlank "B" = false from by decide]
  simp [List.mapIdx]
  rfl

/-- **C6 amended.** Renaming a spacing method updates only the entry at the
given registry index; the context registry is unchanged, so a context bound
to the old name keeps referencing the old name (the dangling reference is
handled later by resolver fallback, not by a rename cascade). -/
theorem renameSpacingMethod_contexts_unchanged (st : Settings) (index : ℕ)
    (value : String) :
    (renameSpacingMethod st index value).contexts = st.contexts ∧
    ∀ i m, st.spacingMethods.get? i = some m → i ≠ index →
      (renameSpacingMethod st index value).spacingMethods.get? i = some m := by
  constructor
  · rfl
  · intro i m hi hne
    unfold renameSpacingMethod
    simp only [List.get?_eq_getElem?] at hi ⊢
    rw [List.getElem?_mapIdx]
    simp [hi, hne]

/-- Witness for `renameSpacingMethod_contexts_unchanged` on a two-method
registry: renaming index 0 leaves the method at index 1 intact. -/
theorem renameSpacingMethod_contexts_unchanged_witness :
    (renameSpacingMethod
        ⟨[], [⟨"A", "SuperMemo2.0", "", [], 1, none⟩, ⟨"C", "Custom", "", [], 2, none⟩]⟩
        0 "B").contexts = [] ∧
    (renameSpacingMethod
        ⟨[], [⟨"A", "SuperMemo2.0", "", [], 1, none⟩, ⟨"C", "Custom", "", [], 2, none⟩]⟩
        0 "B").spacingMethods.get? 1 = some ⟨"C", "Custom", "", [], 2, none⟩ :=
  ⟨(renameSpacingMethod_contexts_unchanged
      ⟨[], [⟨"A", "SuperMemo2.0", "", [], 1, none⟩, ⟨"C", "Custom", "", [], 2, none⟩]⟩
      0 "B").1,
    (renameSpacingMethod_contexts_unchanged
      ⟨[], [⟨"A", "SuperMemo2.0", "", [], 1, none⟩, ⟨"C", "Custom", "", [], 2, none⟩]⟩
      0 "B").2 1 ⟨"C", "Custom", "", [], 2, none⟩ rfl (by decide)⟩

/-- The frontmatter update queued by `toggleNoteContexts` (src/main.ts
lines 312-341): with no registered contexts, or a cancelled prompt,
nothing is queued; otherwise the selected context name is toggled in the
note's `se-contexts` list and the updated list is queued.  The prompt
choice is modelled as the selected context name (the `☑`/`☐` display
prefix stripping is elided). -/
def toggleNoteContexts (st : Settings) (fm : NoteMeta) (choice : Option String) :
    List (String × FmValue) :=
  if st.contexts = [] then []
  else
    match choice with
    | none => []
    | some selectedContext =>
      let currentContexts := fm.contexts
      let updatedContexts :=
        currentContexts.filter (fun c => ¬ c = selectedContext) ++
          (if currentContexts.contains selectedContext then [] else [selectedContext])
      [("se-contexts", FmValue.strList updatedContexts)]

/-- The scheduling frontmatter block queued at the end of a successful
onboarding (src/main.ts lines 521-527).  A method whose optional default
ease factor is absent queues the JavaScript `undefined` value. -/
def onboardUpdates (m : SpacingMethod) (nowFormatted : String) : List (String × FmValue) :=
  [("se-interval", FmValue.num m.defaultInterval),
   ("se-last-reviewed", FmValue.str nowFormatted),
   ("se-ease", match m.defaultEaseFactor with
     | some e => FmValue.num e
     | none => FmValue.undef),
   ("se-method", FmValue.str m.name)]

/-- `onboardNoteToSpacedEverything` (src/main.ts lines 495-535): the
context toggle runs first; with exactly one registered spacing method it
is used directly, otherwise the user is prompted.  The result pairs the
returned boolean with the updates queued during the call; `none` models
the JavaScript crash of the non-null assertion when a selected name is
not registered (the suggester only offers registered names). -/
def onboardNote (st : Settings) (fm : NoteMeta) (contextChoice : Option String)
    (methodChoice : Option String) (nowFormatted : String) :
    Option (Bool × List (String × FmValue)) :=
  let q1 := toggleNoteContexts st fm contextChoice
  if st.spacingMethods.length = 1 then
    match st.spacingMethods.head? with
    | some m => some (true, q1 ++ onboardUpdates m nowFormatted)
    | none => none
  else
    match methodChoice with
    | none => some (false, q1)
    | some selectedMethod =>
      match st.spacingMethods.find? (fun m => m.name == selectedMethod) with
      | some m => some (true, q1 ++ onboardUpdates m nowFormatted)
      | none => none

/-- **C7.** With more than one registered spacing method, cancelling the
method-choice prompt during onboarding leaves every scheduling key
untouched: onboarding reports failure and no queued update mentions
`se-interval`, `se-ease`, `se-last-reviewed` or `se-method`. -/
theorem onboardNote_cancel_no_scheduling_mutation (st : Settings) (fm : NoteMeta)
    (contextChoice : Option String) (nowFormatted : String)
    (hmulti : 1 < st.spacingMethods.length) :
    ∃ q, onboardNote st fm contextChoice none nowFormatted = some (false, q) ∧
      ∀ kv ∈ q, kv.1 ≠ "se-interval" ∧ kv.1 ≠ "se-ease" ∧
        kv.1 ≠ "se-last-reviewed" ∧ kv.1 ≠ "se-method" := by
  have hne1 : ¬ st.spacingMethods.length = 1 := by omega
  refine ⟨toggleNoteContexts st fm contextChoice, ?_, ?_⟩
  · unfold onboardNote
    rw [if_neg hne1]
  · intro kv hkv
    unfold toggleNoteContexts at hkv
    by_cases hc : st.contexts = []
    · rw [if_pos hc] at hkv
      exact absurd hkv (List.not_mem_nil _)
    · rw [if_neg hc] at hkv
      cases contextChoice with
      | none => exact absurd hkv (List.not_mem_nil _)
      | some sel =>
        simp only [List.mem_singleton] at hkv
        rw [hkv]
        exact ⟨fun h => by simp at h, fun h => by simp at h,
          fun h => by simp at h, fun h => by simp at h⟩
/-- Witness for `onboardNote_cancel_no_scheduling_mutation` with two
registered spacing methods, one registered context, a selected context and
a cancelled method prompt. -/
theorem onboardNote_cancel_no_scheduling_mutation_witness :
    1 < ([⟨"A", "SuperMemo2.0", "", [], 1, some (2.5 : ℚ)⟩,
          ⟨"B", "SuperMemo2.0", "", [], 1, some (2.5 : ℚ)⟩] : List SpacingMethod).length ∧
    ∃ q, onboardNote
        ⟨[⟨"work", true, none⟩],
          [⟨"A", "SuperMemo2.0", "", [], 1, some (2.5 : ℚ)⟩,
            ⟨"B", "SuperMemo2.0", "", [], 1, some (2.5 : ℚ)⟩]⟩
        ⟨none, none, none, []⟩ (some "work") none "2024-01-01T00:00:00Z" =
        some (false, q) ∧
      ∀ kv ∈ q, kv.1 ≠ "se-interval" ∧ kv.1 ≠ "se-ease" ∧
        kv.1 ≠ "se-last-reviewed" ∧ kv.1 ≠ "se-method" :=
  ⟨by decide,
    onboardNote_cancel_no_scheduling_mutation
      ⟨[⟨"work", true, none⟩],
        [⟨"A", "SuperMemo2.0", "", [], 1, some (2.5 : ℚ)⟩,
          ⟨"B", "SuperMemo2.0", "", [], 1, some (2.5 : ℚ)⟩]⟩
      ⟨none, none, none, []⟩ (some "work") "2024-01-01T00:00:00Z" (by decide)⟩

/-- A note's raw frontmatter object: present keys map to values. -/
def MetaMap : Type := String → Option FmValue

/-- One step of `updateFrontmatter` (src/frontmatterQueue.ts lines 30-43):
an `undefined` value deletes the key, any other value sets it. -/
def applyUpdate (m : MetaMap) (kv : String × FmValue) : MetaMap :=
  fun k =>
    if k = kv.1 then
      match kv.2 with
      | FmValue.undef => none
      | v => some v
    else m k

/-- Applying a list of key/value updates in order. -/
def applyUpdates (m : MetaMap) (updates : List (String × FmValue)) : MetaMap :=
  updates.foldl applyUpdate m

/-- The update record queued by `removeNoteFromSpacedEverything`
(src/main.ts lines 537-548): the four scheduling keys set to `undefined`,
i.e. deleted. -/
def removeNoteUpdates : List (String × FmValue) :=
  [("se-interval", FmValue.undef), ("se-ease", FmValue.undef),
   ("se-last-reviewed", FmValue.undef), ("se-contexts", FmValue.undef)]

/-- `isNoteOnboarded` (src/main.ts lines 491-493): a note is onboarded iff
its frontmatter has the `se-interval` key. -/
def isNoteOnboarded (m : MetaMap) : Bool := (m "se-interval").isSome

/-- **C8.** Removal deletes exactly the keys `se-interval`, `se-ease`,
`se-last-reviewed` and `se-contexts` and leaves every other key unchanged;
in particular `se-method` keeps its prior value, and the note is no longer
onboarded afterwards (onboarded-ness being presence of the interval
key). -/
theorem removeNote_frame (m : MetaMap) (k : String) :
    (k = "se-interval" ∨ k = "se-ease" ∨ k = "se-last-reviewed" ∨ k = "se-contexts" →
      applyUpdates m removeNoteUpdates k = none) ∧
    (k ≠ "se-interval" → k ≠ "se-ease" → k ≠ "se-last-reviewed" → k ≠ "se-contexts" →
      applyUpdates m removeNoteUpdates k = m k) ∧
    applyUpdates m removeNoteUpdates "se-method" = m "se-method" ∧
    isNoteOnboarded (applyUpdates m removeNoteUpdates) = false := by
  refine ⟨?_, ?_, ?_, ?_⟩
  · rintro (rfl | rfl | rfl | rfl) <;>
      simp [applyUpdates, removeNoteUpdates, applyUpdate, List.foldl]
  · intro h1 h2 h3 h4
    simp [applyUpdates, removeNoteUpdates, applyUpdate, List.foldl, h1, h2, h3, h4]
  · simp [applyUpdates, removeNoteUpdates, applyUpdate, List.foldl]
  · simp [isNoteOnboarded, applyUpdates, removeNoteUpdates, applyUpdate, List.foldl]

/-- Witness for `removeNote_frame` on a concrete frontmatter holding all
five recognized keys: an unrelated key and `se-method` survive removal. -/
theorem removeNote_frame_witness :
    (applyUpdates
        (fun k => if k = "se-method" then some (FmValue.str "A")
          else if k = "se-interval" then some (FmValue.num 1) else none)
        removeNoteUpdates "other" =
      (fun k => if k = "se-method" then some (FmValue.str "A")
          else if k = "se-interval" then some (FmValue.num 1) else none) "other") ∧
    (applyUpdates
        (fun k => if k = "se-method" then some (FmValue.str "A")
          else if k = "se-interval" then some (FmValue.num 1) else none)
        removeNoteUpdates "se-method" =
      (fun k => if k = "se-method" then some (FmValue.str "A")
          else if k = "se-interval" then some (FmValue.num 1) else none) "se-method") :=
  ⟨(removeNote_frame
      (fun k => if k = "se-method" then some (FmValue.str "A")
        else if k = "se-interval" then some (FmValue.num 1) else none) "other").2.1
      (by decide) (by decide) (by decide) (by decide),
    (removeNote_frame
      (fun k => if k = "se-method" then some (FmValue.str "A")
        else if k = "se-interval" then some (FmValue.num 1) else none) "se-method").2.2.1⟩

/-- A JavaScript `Date` construction: `new Date(0)` or `new Date(s)`. -/
inductive JsDate where
  | fromMs (n : ℤ)
  | fromString (s : String)
deriving DecidableEq, Repr

/-- The `[+-]` character class. -/
def isPlusMinus (c : Char) : Bool := c == '+' || c == '-'

/-- The `T.*[+-]` half of the regex `/Z$|T.*[+-]/`: some `'T'` is followed,
anywhere later, by `'+'` or `'-'`. -/
def hasTOffset : List Char → Bool
  | [] => false
  | c :: rest => (c == 'T' && rest.any isPlusMinus) || hasTOffset rest

/-- The `Z$` half of the regex: the last character is `'Z'`. -/
def endsWithZ : List Char → Bool
  | [] => false
  | [c] => c == 'Z'
  | _ :: rest => endsWithZ rest

/-- The test `/Z$|T.*[+-]/.test(timestamp)` of `parseTimestamp`. -/
def hasTimezoneIndicator (s : String) : Bool :=
  endsWithZ s.data || hasTOffset s.data

/-- `parseTimestamp` (src/main.ts lines 138-156): empty input gives
`new Date(0)`; input with a timezone indicator is parsed as-is; otherwise
the `timestampTimeZone` setting decides: `"Local"` parses as-is (local
interpretation), anything else — `"UTC"` and the switch default — appends
`"Z"` before parsing. -/
def parseTimestamp (tz : String) (timestamp : String) : JsDate :=
  if timestamp = "" then JsDate.fromMs 0
  else if hasTimezoneIndicator timestamp then JsDate.fromString timestamp
  else if tz = "Local" then JsDate.fromString timestamp
  else JsDate.fromString (timestamp ++ "Z")

/-- The claim's description of a timezone indicator: a trailing `'Z'`, or a
`'+'`/`'-'` occurring after the `'T'` date-time separator. -/
def HasZoneIndicatorSpec (s : String) : Prop :=
  (∃ pre, s.data = pre ++ ['Z']) ∨
  (∃ pre mid, s.data = pre ++ 'T' :: mid ∧ ∃ c ∈ mid, c = '+' ∨ c = '-')

/-- `endsWithZ` detects exactly the lists ending in `'Z'`. -/
theorem endsWithZ_iff (l : List Char) :
    endsWithZ l = true ↔ ∃ pre, l = pre ++ ['Z'] := by
  induction l with
  | nil => simp [endsWithZ]
  | cons a t ih =>
    cases t with
    | nil =>
      rw [show endsWithZ [a] = (a == 'Z') from rfl]
      constructor
      · intro h
        exact ⟨[], by rw [eq_of_beq h]; rfl⟩
      · rintro ⟨pre, hp⟩
        cases pre with
        | nil =>
          injection hp with h1 h2
          rw [h1]
          rfl
        | cons x xs =>
          injection hp with h1 h2
          exact absurd h2.symm (List.append_ne_nil_of_right_ne_nil xs (by simp))
    | cons b t2 =>
      rw [show endsWithZ (a :: b :: t2) = endsWithZ (b :: t2) from rfl, ih]
      constructor
      · rintro ⟨pre, hp⟩
        exact ⟨a :: pre, by rw [hp]; rfl⟩
      · rintro ⟨pre, hp⟩
        cases pre with
        | nil => simp at hp
        | cons x xs =>
          injection hp with h1 h2
          exact ⟨xs, h2⟩

/-- `hasTOffset` detects exactly the lists with a `'+'`/`'-'` after some
`'T'`. -/
theorem hasTOffset_iff (l : List Char) :
    hasTOffset l = true ↔
      ∃ pre mid, l = pre ++ 'T' :: mid ∧ ∃ c ∈ mid, c = '+' ∨ c = '-' := by
  induction l with
  | nil => simp [hasTOffset]
  | cons a t ih =>
    rw [show hasTOffset (a :: t) = ((a == 'T' && t.any isPlusMinus) || hasTOffset t)
      from rfl]
    rw [Bool.or_eq_true, Bool.and_eq_true, ih]
    constructor
    · rintro (⟨haT, hany⟩ | ⟨pre, mid, hmid, hc⟩)
      · refine ⟨[], t, by rw [eq_of_beq haT]; rfl, ?_⟩
        obtain ⟨c, hct, hpm⟩ := List.any_eq_true.mp hany
        refine ⟨c, hct, ?_⟩
        rw [isPlusMinus, Bool.or_eq_true] at hpm
        rcases hpm with h | h
        · exact Or.inl (eq_of_beq h)
        · exact Or.inr (eq_of_beq h)
      · exact ⟨a :: pre, mid, by rw [hmid]; rfl, hc⟩
    · rintro ⟨pre, mid, hl, c, hcm, hc⟩
      cases pre with
      | nil =>
        injection hl with h1 h2
        refine Or.inl ⟨by rw [h1]; exact beq_self_eq_true _, ?_⟩
        refine List.any_eq_true.mpr ⟨c, by rw [h2]; exact hcm, ?_⟩
        rcases hc with rfl | rfl <;> rfl
      | cons x xs =>
        injection hl with h1 h2
        exact Or.inr ⟨xs, mid, h2, c, hcm, hc⟩

/-- The regex test agrees with the claim's characterization. -/
theorem hasTimezoneIndicator_iff (s : String) :
    hasTimezoneIndicator s = true ↔ HasZoneIndicatorSpec s := by
  rw [hasTimezoneIndicator, Bool.or_eq_true, endsWithZ_iff, hasTOffset_iff]
  rfl

/-- **C9.** Timestamp parsing distinguishes the two historical formats: a
timestamp with an explicit zone indicator (trailing `'Z'`, or `'+'`/`'-'`
after the `'T'` separator) is parsed as-is; a bare timestamp is
interpreted per the configured zone — `"Local"` as-is, anything else
(including the `"UTC"` default) by appending `"Z"` first; an empty
timestamp parses to the epoch. -/
theorem parseTimestamp_spec (tz ts : String) :
    (ts = "" → parseTimestamp tz ts = JsDate.fromMs 0) ∧
    (ts ≠ "" → HasZoneIndicatorSpec ts →
      parseTimestamp tz ts = JsDate.fromString ts) ∧
    (ts ≠ "" → ¬ HasZoneIndicatorSpec ts → tz = "Local" →
      parseTimestamp tz ts = JsDate.fromString ts) ∧
    (ts ≠ "" → ¬ HasZoneIndicatorSpec ts → tz ≠ "Local" →
      parseTimestamp tz ts = JsDate.fromString (ts ++ "Z")) := by
  refine ⟨?_, ?_, ?_, ?_⟩
  · intro h
    simp [parseTimestamp, h]
  · intro h hz
    have hzi : hasTimezoneIndicator ts = true := (hasTimezoneIndicator_iff ts).mpr hz
    simp [parseTimestamp, h, hzi]
  · intro h hz htz
    have hzi : hasTimezoneIndicator ts = false := by
      rw [← Bool.not_eq_true]
      exact fun hh => hz ((hasTimezoneIndicator_iff ts).mp hh)
    simp [parseTimestamp, h, hzi, htz]
  · intro h hz htz
    have hzi : hasTimezoneIndicator ts = false := by
      rw [← Bool.not_eq_true]
      exact fun hh => hz ((hasTimezoneIndicator_iff ts).mp hh)
    simp [parseTimestamp, h, hzi, htz]

/-- Witness for `parseTimestamp_spec`: the bare timestamp
`2024-01-02T03:04:05` (its dashes precede the `'T'`) under the default
`"UTC"` zone gets `"Z"` appended. -/
theorem parseTimestamp_spec_witness :
    ("2024-01-02T03:04:05" : String) ≠ "" ∧
    ¬ HasZoneIndicatorSpec "2024-01-02T03:04:05" ∧
    ("UTC" : String) ≠ "Local" ∧
    parseTimestamp "UTC" "2024-01-02T03:04:05" =
      JsDate.fromString ("2024-01-02T03:04:05" ++ "Z") := by
  have hz : ¬ HasZoneIndicatorSpec "2024-01-02T03:04:05" := by
    intro hsp
    have h1 : hasTimezoneIndicator "2024-01-02T03:04:05" = true :=
      (hasTimezoneIndicator_iff _).mpr hsp
    have h2 : hasTimezoneIndicator "2024-01-02T03:04:05" = false := by decide
    rw [h1] at h2
    exact Bool.noConfusion h2
  exact ⟨by decide, hz, by decide,
    (parseTimestamp_spec "UTC" "2024-01-02T03:04:05").2.2.2 (by decide) hz (by decide)⟩

/-- A per-file merged update record, the JavaScript object accumulated in
the queue `Map`: present keys map to values (possibly the explicit
`undefined`). -/
def FMRecord : Type := String → Option FmValue

/-- The fresh `{}` placed in the `Map` for a new path. -/
def emptyRecord : FMRecord := fun _ => none

/-- One entry of `Object.assign(fileUpdates, updates)`: set the key. -/
def assignOne (r : FMRecord) (kv : String × FmValue) : FMRecord :=
  fun k => if k = kv.1 then some kv.2 else r k

/-- `Object.assign(fileUpdates, updates)`: set every entry in order, later
entries overriding earlier ones. -/
def assignList (r : FMRecord) (updates : List (String × FmValue)) : FMRecord :=
  updates.foldl assignOne r

/-- The queue state of `FrontmatterQueue`: a `Map` from file path to merged
record, in insertion order. -/
abbrev FMQueue : Type := List (String × FMRecord)

/-- `FrontmatterQueue.add` (src/frontmatterQueue.ts lines 11-18): merge the
updates into the path's existing record, or append a fresh entry. -/
def queueAdd (q : FMQueue) (path : String) (updates : List (String × FmValue)) : FMQueue :=
  if q.any (fun e => e.1 == path) then
    q.map (fun e => if e.1 == path then (e.1, assignList e.2 updates) else e)
  else q ++ [(path, assignList emptyRecord updates)]

/-- `queue.get(path)`. -/
def queueLookup (q : FMQueue) (p : String) : Option FMRecord :=
  (q.find? (fun e => e.1 == p)).map (fun e => e.2)

/-- `FrontmatterQueue.process` (src/frontmatterQueue.ts lines 20-28): one
`updateFrontmatter` write per queued path whose file still exists, then
`queue.clear()`.  The first component lists the performed writes (path and
merged record applied in one atomic frontmatter mutation); the second is
the queue afterwards. -/
def queueProcess (fileExists : String → Bool) (q : FMQueue) :
    List (String × FMRecord) × FMQueue :=
  (q.filter (fun e => fileExists e.1), [])

/-- `updateFrontmatter` (src/frontmatterQueue.ts lines 30-43) applied to a
frontmatter map: keys mapped to `undefined` are deleted, other present
keys are set, absent keys keep their prior value. -/
def applyRecord (m : MetaMap) (r : FMRecord) : MetaMap :=
  fun k =>
    match r k with
    | some FmValue.undef => none
    | some v => some v
    | none => m k

/-- The claim-side merged value of a key: the value of the last update
entry mentioning it, if any. -/
def lastValue : List (String × FmValue) → String → Option FmValue
  | [], _ => none
  | kv :: rest, k =>
    match lastValue rest k with
    | some v => some v
    | none => if k = kv.1 then some kv.2 else none

/-- `Object.assign` realizes last-writer-wins key merging. -/
theorem assignList_lastValue (u : List (String × FmValue)) :
    ∀ (r : FMRecord) (k : String),
      assignList r u k =
        match lastValue u k with
        | some v => some v
        | none => r k := by
  induction u with
  | nil => intro r k; rfl
  | cons kv u ih =>
    intro r k
    rw [show assignList r (kv :: u) = assignList (assignOne r kv) u from rfl, ih]
    rw [show lastValue (kv :: u) k =
      (match lastValue u k with
       | some v => some v
       | none => if k = kv.1 then some kv.2 else none) from rfl]
    cases lastValue u k with
    | some v => rfl
    | none => by_cases hk : k = kv.1 <;> simp [assignOne, hk]

/-- After an `add`, the path's merged record is the previous record (or a
fresh one) with the updates assigned over it. -/
theorem queueLookup_add (q : FMQueue) (p : String) (u : List (String × FmValue)) :
    queueLookup (queueAdd q p u) p =
      some (assignList ((queueLookup q p).getD emptyRecord) u) := by
  unfold queueAdd queueLookup
  by_cases hq : q.any (fun e => e.1 == p) = true
  · rw [if_pos hq, List.find?_map]
    have hpred : ((fun e : String × FMRecord => e.1 == p) ∘
        (fun e : String × FMRecord => if e.1 == p then (e.1, assignList e.2 u) else e)) =
        fun e : String × FMRecord => e.1 == p := by
      funext e
      by_cases he : e.1 = p
      · simp [he]
      · simp [he]
    rw [hpred]
    cases hf : q.find? (fun e => e.1 == p) with
    | none =>
      rw [List.find?_eq_none] at hf
      obtain ⟨e0, hmem, hp0⟩ := List.any_eq_true.mp hq
      exact absurd hp0 (hf e0 hmem)
    | some e0 =>
      have hp0 := List.find?_some hf
      simp only [beq_iff_eq] at hp0
      simp [hp0]
  · rw [if_neg hq, List.find?_append]
    have hf : q.find? (fun e => e.1 == p) = none := by
      rw [List.find?_eq_none]
      intro e he hp0
      exact hq (List.any_eq_true.mpr ⟨e, he, hp0⟩)
    rw [hf]
    simp

/-- **C10.** The frontmatter queue batches all pending mutations for one
note into a single atomic application: updates added for the same file
merge key-by-key with the later-queued value overriding; `process` performs
one write per queued file, applying the merged record in one frontmatter
mutation in which an `undefined` value deletes the key; after `process`
the queue is empty, so a second `process` with no intervening `add`
performs no writes. -/
theorem frontmatterQueue_spec (q : FMQueue) (p : String)
    (u1 u2 : List (String × FmValue)) (fileExists : String → Bool) :
    (∀ k, ∃ r, queueLookup (queueAdd (queueAdd q p u1) p u2) p = some r ∧
      r k =
        (match lastValue u2 k with
         | some v => some v
         | none =>
           match lastValue u1 k with
           | some v => some v
           | none =>
             match queueLookup q p with
             | some r0 => r0 k
             | none => none)) ∧
    ((queueProcess fileExists q).1.map (fun e => e.1) =
      (q.map (fun e => e.1)).filter fileExists) ∧
    ((queueProcess fileExists q).2 = ([] : FMQueue)) ∧
    (queueProcess fileExists (queueProcess fileExists q).2 = ([], [])) ∧
    (∀ (m : MetaMap) (r : FMRecord) (k : String),
      (r k = some FmValue.undef → applyRecord m r k = none) ∧
      (∀ v, v ≠ FmValue.undef → r k = some v → applyRecord m r k = some v) ∧
      (r k = none → applyRecord m r k = m k)) := by
  refine ⟨?_, ?_, rfl, rfl, ?_⟩
  · intro k
    refine ⟨_, queueLookup_add _ _ _, ?_⟩
    rw [assignList_lastValue]
    cases lastValue u2 k with
    | some v => rfl
    | none =>
      rw [queueLookup_add]
      show assignList ((queueLookup q p).getD emptyRecord) u1 k = _
      rw [assignList_lastValue]
      cases lastValue u1 k with
      | some v => rfl
      | none =>
        cases queueLookup q p with
        | some r0 => rfl
        | none => rfl
  · show (q.filter (fun e => fileExists e.1)).map (fun e => e.1) = _
    induction q with
    | nil => rfl
    | cons e t ih =>
      by_cases h : fileExists e.1 = true <;> simp [List.filter_cons, h, ih]
  · intro m r k
    refine ⟨?_, ?_, ?_⟩
    · intro h
      unfold applyRecord
      rw [h]
    · intro v hv hrk
      unfold applyRecord
      rw [hrk]
      cases v with
      | undef => exact absurd rfl hv
      | num x => rfl
      | str x => rfl
      | strList x => rfl
    · intro h
      unfold applyRecord
      rw [h]

/-- Witness for `frontmatterQueue_spec`: two adds for the same note merge
with the later interval value winning, and an `undefined` entry deletes the
key on application. -/
theorem frontmatterQueue_spec_witness :
    (∃ r, queueLookup
        (queueAdd (queueAdd [] "note.md" [("se-interval", FmValue.num 1)])
          "note.md" [("se-interval", FmValue.num 2)]) "note.md" = some r ∧
      r "se-interval" = some (FmValue.num 2)) ∧
    applyRecord (fun _ => none)
      (fun k => if k = "se-ease" then some FmValue.undef else none) "se-ease" = none := by
  have hthm := frontmatterQueue_spec [] "note.md"
    [("se-interval", FmValue.num 1)] [("se-interval", FmValue.num 2)] (fun _ => true)
  refine ⟨?_, ?_⟩
  · obtain ⟨r, hr, hrk⟩ := hthm.1 "se-interval"
    exact ⟨r, hr, hrk.trans rfl⟩
  · exact (hthm.2.2.2.2 (fun _ => none)
      (fun k => if k = "se-ease" then some FmValue.undef else none) "se-ease").1 rfl
